import Mathlib

/-!
Verification development for the `atom_str` string-interning library
(`src/lib.rs`).  The shallow embedding below models:

* the XxHash64 digest (the external `twox_hash` dependency) as an
  executable function over byte lists, with machine words as `Nat`
  reduced modulo `2^64`;
* the hashing entry points `hash_bytes`, `hash_bytes_head_tail`,
  `hash_bytes_ends`, `hash_str`, `hash_str_ends`;
* `AtomKey` and `AtomKey::from_str`;
* the record store and the global intern registry (`INTERN_SET` plus
  `Atom::new`), with an `Atom` represented by the index of its record
  in the allocation store (pointer identity = index equality, since
  every record is a distinct allocation that is never freed);
* the layout computation `AtomInner::layout`;
* string slicing / `Index` on `Atom`, the comparison surface, and the
  `Hash` impl.

Strings are byte lists (`Str := List Nat`, UTF-8 bytes); `usize`
arithmetic is modelled as `Nat` with explicit wrapping modulo `2^64`
where the source can overflow.
-/

/-- Byte strings: the UTF-8 bytes of a Rust `str`. -/
abbrev Str : Type := List Nat

/-- Modulus of 64-bit machine words (`u64`, and `usize` on the 64-bit
targets this crate is built for). -/
def M64 : Nat := 2 ^ 64

/-- XXH64 prime 1. -/
def PRIME64_1 : Nat := 0x9E3779B185EBCA87
/-- XXH64 prime 2. -/
def PRIME64_2 : Nat := 0xC2B2AE3D27D4EB4F
/-- XXH64 prime 3. -/
def PRIME64_3 : Nat := 0x165667B19E3779F9
/-- XXH64 prime 4. -/
def PRIME64_4 : Nat := 0x85EBCA77C2B2AE63
/-- XXH64 prime 5. -/
def PRIME64_5 : Nat := 0x27D4EB2F165667C5

/-- Wrapping 64-bit addition. -/
def add64 (a b : Nat) : Nat := (a + b) % M64

/-- Wrapping 64-bit subtraction (for operands below `2^64`). -/
def sub64 (a b : Nat) : Nat := (a + M64 - b % M64) % M64

/-- Wrapping 64-bit multiplication. -/
def mul64 (a b : Nat) : Nat := (a * b) % M64

/-- Rotate a 64-bit word left by `r` (for `x < 2^64`, `r ≤ 64`). -/
def rotl64 (x r : Nat) : Nat := (x % 2 ^ (64 - r)) * 2 ^ r + x / 2 ^ (64 - r)

/-- Logical right shift of a 64-bit word. -/
def shr64 (x r : Nat) : Nat := x / 2 ^ r

/-- Read a little-endian unsigned integer from a list of bytes. -/
def leBytes (l : List Nat) : Nat := l.foldr (fun b acc => b % 256 + 256 * acc) 0

/-- XXH64 lane round: `((acc + lane * PRIME64_2) <<< 31) * PRIME64_1`. -/
def xxRound (acc lane : Nat) : Nat := mul64 (rotl64 (add64 acc (mul64 lane PRIME64_2)) 31) PRIME64_1

/-- XXH64 accumulator merge step. -/
def xxMergeRound (acc val : Nat) : Nat := add64 (mul64 (Nat.xor acc (xxRound 0 val)) PRIME64_1) PRIME64_4

/-- XXH64 final avalanche. -/
def xxAvalanche (acc : Nat) : Nat :=
  let a1 := mul64 (Nat.xor acc (shr64 acc 33)) PRIME64_2
  let a2 := mul64 (Nat.xor a1 (shr64 a1 29)) PRIME64_3
  Nat.xor a2 (shr64 a2 32)

/-- Consume `n` 32-byte stripes, updating the four lane accumulators
(`n` is the stripe count, so the recursion is structural and
kernel-reducible). -/
def xxStripes : Nat → Nat × Nat × Nat × Nat → List Nat → (Nat × Nat × Nat × Nat) × List Nat
  | 0, accs, l => (accs, l)
  | n + 1, (a1, a2, a3, a4), l =>
      xxStripes n
        (xxRound a1 (leBytes (l.take 8)),
         xxRound a2 (leBytes ((l.drop 8).take 8)),
         xxRound a3 (leBytes ((l.drop 16).take 8)),
         xxRound a4 (leBytes ((l.drop 24).take 8)))
        (l.drop 32)

/-- Tail processing, single trailing bytes (< 4 left). -/
def xxFinal1 : Nat → List Nat → Nat
  | acc, [] => xxAvalanche acc
  | acc, b :: rest => xxFinal1 (mul64 (rotl64 (Nat.xor acc (mul64 (b % 256) PRIME64_5)) 11) PRIME64_1) rest

/-- Tail processing, one 4-byte lane if at least 4 bytes are left. -/
def xxFinal4 (acc : Nat) (l : List Nat) : Nat :=
  if 4 ≤ l.length then
    xxFinal1 (add64 (mul64 (rotl64 (Nat.xor acc (mul64 (leBytes (l.take 4)) PRIME64_1)) 23) PRIME64_2) PRIME64_3) (l.drop 4)
  else xxFinal1 acc l

/-- Tail processing, `n` 8-byte lanes (`n` is the lane count). -/
def xxFinal8 : Nat → Nat → List Nat → Nat
  | 0, acc, l => xxFinal4 acc l
  | n + 1, acc, l =>
      xxFinal8 n (add64 (mul64 (rotl64 (Nat.xor acc (xxRound 0 (leBytes (l.take 8)))) 27) PRIME64_1) PRIME64_4) (l.drop 8)

/-- The XXH64 digest of `input` with the given `seed`, per the xxHash
specification; this models `twox_hash::XxHash64`. -/
def xxh64 (seed : Nat) (input : List Nat) : Nat :=
  let len := input.length
  if 32 ≤ len then
    let start := xxStripes (len / 32)
      (add64 (add64 seed PRIME64_1) PRIME64_2, add64 seed PRIME64_2, seed % M64, sub64 seed PRIME64_1)
      input
    let a1 := start.1.1
    let a2 := start.1.2.1
    let a3 := start.1.2.2.1
    let a4 := start.1.2.2.2
    let acc0 := add64 (add64 (add64 (rotl64 a1 1) (rotl64 a2 7)) (rotl64 a3 12)) (rotl64 a4 18)
    let acc1 := xxMergeRound (xxMergeRound (xxMergeRound (xxMergeRound acc0 a1) a2) a3) a4
    let rest := start.2
    xxFinal8 (rest.length / 8) (add64 acc1 len) rest
  else
    xxFinal8 (len / 8) (add64 (add64 seed PRIME64_5) len) input

/-- Streaming XxHash64 state.  The `twox_hash` streaming hasher buffers
input and produces, on `finish`, the digest of everything written since
`with_seed`; it is modelled by its contract: the seed together with the
concatenation of all written bytes. -/
structure XxHash64 where
  seed : Nat
  buffer : List Nat

/-- `XxHash64::with_seed`. -/
def XxHash64.with_seed (seed : Nat) : XxHash64 := ⟨seed % M64, []⟩

/-- `Hasher::write`: append bytes to the stream. -/
def XxHash64.write (h : XxHash64) (bytes : List Nat) : XxHash64 := ⟨h.seed, h.buffer ++ bytes⟩

/-- `Hasher::finish`: digest of all bytes written so far. -/
def XxHash64.finish (h : XxHash64) : Nat := xxh64 h.seed h.buffer

/-- `XxHash64::oneshot`. -/
def XxHash64.oneshot (seed : Nat) (bytes : List Nat) : Nat := xxh64 (seed % M64) bytes

/-- `const HASH_SEED: u64 = 0x9e3779b9` (src/lib.rs line 20). -/
def HASH_SEED : Nat := 0x9e3779b9

/-- `const ENDS_SIZE: usize = 64` (src/lib.rs line 21). -/
def ENDS_SIZE : Nat := 64

/-- `hash_bytes` (src/lib.rs lines 29-31): `XxHash64::oneshot(HASH_SEED, bytes)`. -/
def hash_bytes (bytes : Str) : Nat := XxHash64.oneshot HASH_SEED bytes

/-- `hash_bytes_head_tail` (src/lib.rs lines 38-49).  `bytes[0..head_size]`
is `take head_size`, `bytes[len - tail_size..len]` is `drop (len - tail_size)`.
Overflow of `head_size + tail_size` and the slice bounds checks are modelled
separately in `hash_bytes_head_tail_checked`; here indices are mathematical
(the claim-relevant, non-overflowing case). -/
def hash_bytes_head_tail (bytes : Str) (head_size tail_size : Nat) : Nat :=
  let ends_total := head_size + tail_size
  if List.length bytes ≤ ends_total then
    hash_bytes bytes
  else
    let head := List.take head_size bytes
    let tail := List.drop (List.length bytes - tail_size) bytes
    XxHash64.finish (XxHash64.write (XxHash64.write (XxHash64.with_seed HASH_SEED) head) tail)

/-- `hash_bytes_ends` (src/lib.rs lines 57-59). -/
def hash_bytes_ends (bytes : Str) (end_size : Nat) : Nat := hash_bytes_head_tail bytes end_size end_size

/-- `hash_str` (src/lib.rs lines 64-66); a `&str` is its UTF-8 bytes. -/
def hash_str (string : Str) : Nat := hash_bytes string

/-- `hash_str_head_tail` (src/lib.rs lines 74-76). -/
def hash_str_head_tail (string : Str) (head_size tail_size : Nat) : Nat :=
  hash_bytes_head_tail string head_size tail_size

/-- `hash_str_ends` (src/lib.rs lines 84-86). -/
def hash_str_ends (string : Str) (end_size : Nat) : Nat := hash_bytes_ends string end_size

example : xxh64 0 [] = 0xEF46DB3751D8E999 := by decide
example : xxh64 0 [97] = 0xD24EC4F1A98C6E5B := by decide
example : xxh64 0 [97, 98, 99] = 0x44BC2CF5AD770999 := by decide
example : xxh64 0 [78, 111, 98, 111, 100, 121, 32, 105, 110, 115, 112, 101, 99, 116,
  115, 32, 116, 104, 101, 32, 115, 112, 97, 109, 109, 105, 115, 104, 32, 114, 101,
  112, 101, 116, 105, 116, 105, 111, 110] = 0xFBCEA83C8A378BF1 := by decide

/-- Rust slice indexing `bytes[a..b]`: in-range yields the sub-slice,
out-of-range panics (`none`). -/
def sliceRange (bytes : Str) (a b : Nat) : Option Str :=
  if a ≤ b ∧ b ≤ List.length bytes then some (List.drop a (List.take b bytes)) else none

/-- Version of `hash_bytes_head_tail` (src/lib.rs lines 38-49) with the
usize semantics made explicit: the addition `head_size + tail_size`
wraps modulo `2^64` (release-profile overflow), and the subtraction
`bytes.len() - tail_size` and both slice expressions panic (`none`)
when out of range. -/
def hash_bytes_head_tail_checked (bytes : Str) (head_size tail_size : Nat) : Option Nat :=
  let ends_total := (head_size + tail_size) % M64
  if List.length bytes ≤ ends_total then
    some (hash_bytes bytes)
  else
    if tail_size ≤ List.length bytes then
      match sliceRange bytes 0 head_size, sliceRange bytes (List.length bytes - tail_size) (List.length bytes) with
      | some head, some tail =>
          some (XxHash64.finish (XxHash64.write (XxHash64.write (XxHash64.with_seed HASH_SEED) head) tail))
      | _, _ => none
    else none

/-- `AtomKey` (src/lib.rs lines 88-93): `{hash: u64, len: usize}`. -/
structure AtomKey where
  hash : Nat
  len : Nat
deriving DecidableEq

/-- `AtomKey::from_str` (src/lib.rs lines 99-106). -/
def AtomKey.from_str (source : Str) : AtomKey :=
  ⟨hash_str_ends source ENDS_SIZE, List.length source⟩

/-- The derived `Ord` on `AtomKey`: lexicographic in field declaration
order, `hash` first and then `len`. -/
def AtomKey.cmp (a b : AtomKey) : Ordering :=
  match compare a.hash b.hash with
  | Ordering.eq => compare a.len b.len
  | o => o

/-- A record (`AtomInner<str>`): the single allocation holding the
`AtomKey` header followed by the payload bytes.  `alloc_new`
(src/lib.rs lines 146-159) writes the header and then copies exactly
`string.len()` bytes into the payload, so the payload region holds
exactly the interned bytes and the header `len` is its length. -/
structure Record where
  key : AtomKey
  payload : Str
deriving DecidableEq

/-- Placeholder record for out-of-range lookups (never reached on
well-formed states). -/
def defaultRecord : Record := ⟨⟨0, 0⟩, []⟩

/-- Registry state: `store` is the sequence of records ever allocated
(an `Atom` is the index of its record, since each record is a distinct,
never-freed allocation — pointer identity is index equality), and
`buckets` is the `HashMap<AtomKey, Vec<Atom>>` behind `INTERN_SET`,
modelled as an association list. -/
structure RegState where
  store : List Record
  buckets : List (AtomKey × List Nat)
deriving DecidableEq

/-- The freshly initialized registry (`LazyLock`: an empty map). -/
def regEmpty : RegState := ⟨[], []⟩

/-- Record referenced by atom `i`. -/
def RegState.recordAt (st : RegState) (i : Nat) : Record := List.getD st.store i defaultRecord

/-- `Atom::as_str` (src/lib.rs lines 234-241): the view of `key.len`
payload bytes; by construction (`alloc_new`) this is the payload. -/
def atomAsStr (st : RegState) (i : Nat) : Str := (st.recordAt i).payload

/-- `Atom::ptr_eq` (src/lib.rs lines 252-254) and the `PartialEq` impl
(lines 272-282): pointer comparison, i.e. record-index comparison. -/
def Atom.ptr_eq (lhs rhs : Nat) : Bool := lhs == rhs

/-- HashMap lookup: the bucket stored for `k`, if any. -/
def bucketGet (k : AtomKey) : List (AtomKey × List Nat) → List Nat
  | [] => []
  | (k2, v) :: rest => if k2 = k then v else bucketGet k rest

/-- HashMap membership test for key `k`. -/
def containsKey (k : AtomKey) : List (AtomKey × List Nat) → Bool
  | [] => false
  | (k2, _) :: rest => k2 == k || containsKey k rest

/-- HashMap insert-or-update of the bucket for `k`. -/
def bucketSet (k : AtomKey) (v : List Nat) : List (AtomKey × List Nat) → List (AtomKey × List Nat)
  | [] => [(k, v)]
  | (k2, v2) :: rest => if k2 = k then (k, v) :: rest else (k2, v2) :: bucketSet k v rest

/-- `Atom::new` (src/lib.rs lines 199-212), the intern operation, in the
always-successful-allocation case: compute the key, make sure the key's
bucket exists (`entry(key).or_insert_with(Vec::new)`), scan it for an
atom whose string equals `string`, and otherwise allocate a new record
(`new_internal`) and push it onto the bucket.  Returns the atom (record
index) and the updated registry. -/
def intern (string : Str) (st : RegState) : Nat × RegState :=
  let key := AtomKey.from_str string
  let buckets1 := if containsKey key st.buckets then st.buckets else st.buckets ++ [(key, [])]
  let atoms := bucketGet key buckets1
  match List.find? (fun i => atomAsStr st i == string) atoms with
  | some i => (i, { st with buckets := buckets1 })
  | none =>
      let i := List.length st.store
      (i, ⟨st.store ++ [⟨key, string⟩], bucketSet key (atoms ++ [i]) buckets1⟩)

/-- Registry well-formedness, maintained by `intern` from the empty
initial state: headers match payloads, no two records hold the same
content, bucket keys are unique, every bucketed atom is a valid record
whose key is the bucket key, and every record is registered in the
bucket of its content key. -/
def wf (st : RegState) : Prop :=
  (∀ r ∈ st.store, r.key = AtomKey.from_str r.payload)
  ∧ List.Nodup (List.map Record.payload st.store)
  ∧ List.Nodup (List.map Prod.fst st.buckets)
  ∧ (∀ p ∈ st.buckets, ∀ i ∈ p.2, i < List.length st.store ∧ AtomKey.from_str (st.recordAt i).payload = p.1)
  ∧ (∀ i, i < List.length st.store → i ∈ bucketGet (AtomKey.from_str (st.recordAt i).payload) st.buckets)

instance (st : RegState) : Decidable (wf st) := by
  unfold wf
  infer_instance

example : wf regEmpty := by decide
example : (intern [97] regEmpty).1 = 0 := by decide
example : (intern [97] (intern [97] regEmpty).2).1 = 0 := by decide
example : (intern [98] (intern [97] regEmpty).2).1 = 1 := by decide
example : atomAsStr (intern [97, 98] regEmpty).2 (intern [97, 98] regEmpty).1 = [97, 98] := by decide
example : wf (intern [97] regEmpty).2 := by decide

theorem bucketGet_eq_nil {k : AtomKey} {bs : List (AtomKey × List Nat)} (h : containsKey k bs = false) :
    bucketGet k bs = [] := by
  induction bs with
  | nil => rfl
  | cons p rest ih =>
      obtain ⟨k2, v⟩ := p
      simp only [containsKey, Bool.or_eq_false_iff, beq_eq_false_iff_ne, ne_eq] at h
      simp only [bucketGet, if_neg h.1, ih h.2]

theorem containsKey_append (k : AtomKey) (bs1 bs2 : List (AtomKey × List Nat)) :
    containsKey k (bs1 ++ bs2) = (containsKey k bs1 || containsKey k bs2) := by
  induction bs1 with
  | nil => simp [containsKey]
  | cons p rest ih =>
      obtain ⟨k2, v⟩ := p
      simp [containsKey, ih, Bool.or_assoc]

theorem bucketGet_append_left {k : AtomKey} {bs1 : List (AtomKey × List Nat)} (bs2 : List (AtomKey × List Nat))
    (h : containsKey k bs1 = true) : bucketGet k (bs1 ++ bs2) = bucketGet k bs1 := by
  induction bs1 with
  | nil => simp [containsKey] at h
  | cons p rest ih =>
      obtain ⟨k2, v⟩ := p
      by_cases hk : k2 = k
      · simp [bucketGet, hk]
      · simp only [containsKey, Bool.or_eq_true, beq_iff_eq] at h
        rcases h with h | h
        · exact absurd h hk
        · simp [bucketGet, hk, ih h]

theorem bucketGet_append_right {k : AtomKey} {bs1 : List (AtomKey × List Nat)} (bs2 : List (AtomKey × List Nat))
    (h : containsKey k bs1 = false) : bucketGet k (bs1 ++ bs2) = bucketGet k bs2 := by
  induction bs1 with
  | nil => rfl
  | cons p rest ih =>
      obtain ⟨k2, v⟩ := p
      simp only [containsKey, Bool.or_eq_false_iff, beq_eq_false_iff_ne, ne_eq] at h
      simp only [List.cons_append, bucketGet, if_neg h.1]
      exact ih h.2

theorem bucketGet_mem {k : AtomKey} {bs : List (AtomKey × List Nat)} (h : containsKey k bs = true) :
    (k, bucketGet k bs) ∈ bs := by
  induction bs with
  | nil => simp [containsKey] at h
  | cons p rest ih =>
      obtain ⟨k2, v⟩ := p
      by_cases hk : k2 = k
      · subst hk
        simp [bucketGet]
      · simp only [containsKey, Bool.or_eq_true, beq_iff_eq] at h
        rcases h with h | h
        · exact absurd h hk
        · simp only [bucketGet, if_neg hk]
          exact List.mem_cons_of_mem _ (ih h)

theorem bucketGet_bucketSet_same (k : AtomKey) (v : List Nat) (bs : List (AtomKey × List Nat)) :
    bucketGet k (bucketSet k v bs) = v := by
  induction bs with
  | nil => simp [bucketSet, bucketGet]
  | cons p rest ih =>
      obtain ⟨k2, v2⟩ := p
      by_cases hk : k2 = k
      · simp [bucketSet, bucketGet, hk]
      · simp [bucketSet, bucketGet, hk, ih]

theorem bucketGet_bucketSet_ne {ka kb : AtomKey} (v : List Nat) (bs : List (AtomKey × List Nat))
    (h : ka ≠ kb) : bucketGet ka (bucketSet kb v bs) = bucketGet ka bs := by
  induction bs with
  | nil => simp [bucketSet, bucketGet, Ne.symm h]
  | cons p rest ih =>
      obtain ⟨kc, vc⟩ := p
      by_cases hk : kc = kb
      · subst hk
        simp [bucketSet, bucketGet, Ne.symm h]
      · simp only [bucketSet, if_neg hk, bucketGet]
        by_cases hk2 : kc = ka
        · simp [hk2]
        · simp [hk2, ih]

theorem mem_bucketSet {p : AtomKey × List Nat} {k : AtomKey} {v : List Nat}
    {bs : List (AtomKey × List Nat)} (h : p ∈ bucketSet k v bs) : p = (k, v) ∨ p ∈ bs := by
  induction bs with
  | nil => simpa [bucketSet] using h
  | cons q rest ih =>
      obtain ⟨k2, v2⟩ := q
      by_cases hk : k2 = k
      · simp only [bucketSet, if_pos hk] at h
        rcases List.mem_cons.mp h with h | h
        · exact Or.inl h
        · exact Or.inr (List.mem_cons_of_mem _ h)
      · simp only [bucketSet, if_neg hk] at h
        rcases List.mem_cons.mp h with h | h
        · exact Or.inr (by simp [h])
        · rcases ih h with h2 | h2
          · exact Or.inl h2
          · exact Or.inr (List.mem_cons_of_mem _ h2)

theorem map_fst_bucketSet {k : AtomKey} {bs : List (AtomKey × List Nat)} (v : List Nat)
    (h : containsKey k bs = true) :
    List.map Prod.fst (bucketSet k v bs) = List.map Prod.fst bs := by
  induction bs with
  | nil => simp [containsKey] at h
  | cons p rest ih =>
      obtain ⟨k2, v2⟩ := p
      by_cases hk : k2 = k
      · simp [bucketSet, hk]
      · simp only [containsKey, Bool.or_eq_true, beq_iff_eq] at h
        rcases h with h | h
        · exact absurd h hk
        · simp [bucketSet, hk, ih h]

theorem containsKey_eq_mem_map_fst (k : AtomKey) (bs : List (AtomKey × List Nat)) :
    containsKey k bs = true ↔ k ∈ List.map Prod.fst bs := by
  induction bs with
  | nil => simp [containsKey]
  | cons p rest ih =>
      obtain ⟨k2, v⟩ := p
      simp only [containsKey, Bool.or_eq_true, beq_iff_eq, ih, List.map_cons, List.mem_cons]
      rw [@eq_comm _ k2 k]

theorem contains_of_mem_bucketGet {i : Nat} {k : AtomKey} {bs : List (AtomKey × List Nat)}
    (h : i ∈ bucketGet k bs) : containsKey k bs = true := by
  by_contra hc
  rw [bucketGet_eq_nil (Bool.eq_false_iff.mpr hc)] at h
  simp at h

theorem ensure_bucketGet (k k2 : AtomKey) (bs : List (AtomKey × List Nat)) :
    bucketGet k2 (if containsKey k bs then bs else bs ++ [(k, [])]) = bucketGet k2 bs := by
  by_cases hc : containsKey k bs
  · rw [if_pos hc]
  · rw [if_neg hc]
    by_cases hc2 : containsKey k2 bs
    · exact bucketGet_append_left _ hc2
    · rw [bucketGet_append_right _ (Bool.eq_false_iff.mpr hc2), bucketGet_eq_nil (Bool.eq_false_iff.mpr hc2)]
      by_cases hk : k = k2
      · subst hk
        simp [bucketGet]
      · simp [bucketGet, hk]

theorem ensure_containsKey (k : AtomKey) (bs : List (AtomKey × List Nat)) :
    containsKey k (if containsKey k bs then bs else bs ++ [(k, [])]) = true := by
  by_cases hc : containsKey k bs
  · rwa [if_pos hc]
  · rw [if_neg hc, containsKey_append]
    simp [containsKey]

theorem ensure_map_fst_nodup {k : AtomKey} {bs : List (AtomKey × List Nat)}
    (h : List.Nodup (List.map Prod.fst bs)) :
    List.Nodup (List.map Prod.fst (if containsKey k bs then bs else bs ++ [(k, [])])) := by
  by_cases hc : containsKey k bs
  · rwa [if_pos hc]
  · rw [if_neg hc, List.map_append]
    refine List.nodup_append.mpr ⟨h, List.nodup_singleton _, ?_⟩
    intro a ha hb
    simp only [List.map_cons, List.map_nil, List.mem_singleton] at hb
    rw [hb] at ha
    exact hc ((containsKey_eq_mem_map_fst k bs).mpr ha)

theorem ensure_mem {p : AtomKey × List Nat} {k : AtomKey} {bs : List (AtomKey × List Nat)}
    (hp : p ∈ (if containsKey k bs then bs else bs ++ [(k, [])])) : p ∈ bs ∨ p = (k, []) := by
  by_cases hc : containsKey k bs
  · rw [if_pos hc] at hp
    exact Or.inl hp
  · rw [if_neg hc] at hp
    rcases List.mem_append.mp hp with h | h
    · exact Or.inl h
    · simp only [List.mem_singleton] at h
      exact Or.inr h

theorem payload_inj {st : RegState} (hnd : List.Nodup (List.map Record.payload st.store))
    {i j : Nat} (hi : i < List.length st.store) (hj : j < List.length st.store)
    (h : atomAsStr st i = atomAsStr st j) : i = j := by
  have hi2 : i < (List.map Record.payload st.store).length := by simpa using hi
  have hj2 : j < (List.map Record.payload st.store).length := by simpa using hj
  have hg : (List.map Record.payload st.store)[i] = (List.map Record.payload st.store)[j] := by
    simp only [List.getElem_map]
    simpa only [atomAsStr, RegState.recordAt, List.getD_eq_getElem _ _ hi, List.getD_eq_getElem _ _ hj] using h
  exact (List.Nodup.getElem_inj_iff hnd).mp hg

theorem intern_found {st : RegState} {s : Str} {i : Nat} (hwf : wf st)
    (hi : i < List.length st.store) (hs : atomAsStr st i = s) :
    intern s st = (i, st) := by
  obtain ⟨hw1, hw2, hw3, hw4, hw5⟩ := hwf
  have hs2 : (st.recordAt i).payload = s := hs
  have hkmem : i ∈ bucketGet (AtomKey.from_str s) st.buckets := by
    have hmem := hw5 i hi
    rwa [hs2] at hmem
  have hcont : containsKey (AtomKey.from_str s) st.buckets = true := contains_of_mem_bucketGet hkmem
  have hfind : List.find? (fun j => atomAsStr st j == s) (bucketGet (AtomKey.from_str s) st.buckets) = some i := by
    cases hf : List.find? (fun j => atomAsStr st j == s) (bucketGet (AtomKey.from_str s) st.buckets) with
    | none =>
        have hnone := List.find?_eq_none.mp hf i hkmem
        simp [hs] at hnone
    | some j =>
        have hsj : atomAsStr st j = s := by simpa using List.find?_some hf
        have hjmem : j ∈ bucketGet (AtomKey.from_str s) st.buckets := List.mem_of_find?_eq_some hf
        have hpair : (AtomKey.from_str s, bucketGet (AtomKey.from_str s) st.buckets) ∈ st.buckets :=
          bucketGet_mem hcont
        have hjlen : j < List.length st.store := (hw4 _ hpair j hjmem).1
        rw [payload_inj hw2 hjlen hi (by rw [hsj, hs])]
  simp only [intern, hcont, if_true, hfind]

theorem intern_miss {st : RegState} {s : Str} (hwf : wf st)
    (hmiss : ∀ i, i < List.length st.store → atomAsStr st i ≠ s) :
    intern s st =
      (List.length st.store,
       ⟨st.store ++ [⟨AtomKey.from_str s, s⟩],
        bucketSet (AtomKey.from_str s)
          (bucketGet (AtomKey.from_str s) st.buckets ++ [List.length st.store])
          (if containsKey (AtomKey.from_str s) st.buckets then st.buckets
           else st.buckets ++ [(AtomKey.from_str s, [])])⟩) := by
  obtain ⟨hw1, hw2, hw3, hw4, hw5⟩ := hwf
  have hfind : List.find? (fun j => atomAsStr st j == s)
      (bucketGet (AtomKey.from_str s)
        (if containsKey (AtomKey.from_str s) st.buckets then st.buckets
         else st.buckets ++ [(AtomKey.from_str s, [])])) = none := by
    rw [ensure_bucketGet]
    apply List.find?_eq_none.mpr
    intro j hj
    have hcont : containsKey (AtomKey.from_str s) st.buckets = true := contains_of_mem_bucketGet hj
    have hpair := bucketGet_mem hcont
    have hjlen : j < List.length st.store := (hw4 _ hpair j hj).1
    simp only [beq_iff_eq]
    exact hmiss j hjlen
  simp only [intern, hfind]
  rw [ensure_bucketGet]

theorem recordAt_append_lt {st : RegState} {tl : List Record} {bk : List (AtomKey × List Nat)} {i : Nat}
    (h : i < List.length st.store) :
    (RegState.mk (st.store ++ tl) bk).recordAt i = st.recordAt i := by
  simp only [RegState.recordAt]
  exact List.getD_append _ _ _ _ h

theorem recordAt_append_self {store : List Record} {r : Record} {bk : List (AtomKey × List Nat)} :
    (RegState.mk (store ++ [r]) bk).recordAt (List.length store) = r := by
  simp only [RegState.recordAt]
  rw [List.getD_append_right _ _ _ _ (Nat.le_refl _), Nat.sub_self]
  rfl

theorem no_content_of_miss {st : RegState}
    (hmiss : ∀ i, i < List.length st.store → atomAsStr st i ≠ s) :
    s ∉ List.map Record.payload st.store := by
  intro hs
  obtain ⟨r, hr, hrs⟩ := List.mem_map.mp hs
  obtain ⟨j, hj, hjr⟩ := List.getElem_of_mem hr
  apply hmiss j hj
  simp only [atomAsStr, RegState.recordAt, List.getD_eq_getElem _ _ hj, hjr, hrs]

theorem intern_wf {st : RegState} {s : Str} (hwf : wf st) : wf (intern s st).2 := by
  by_cases hex : ∃ i, i < List.length st.store ∧ atomAsStr st i = s
  · obtain ⟨i, hi, hs⟩ := hex
    rw [intern_found hwf hi hs]
    exact hwf
  · push_neg at hex
    rw [intern_miss hwf hex]
    obtain ⟨hw1, hw2, hw3, hw4, hw5⟩ := hwf
    have hnotin : s ∉ List.map Record.payload st.store := no_content_of_miss hex
    refine ⟨?_, ?_, ?_, ?_, ?_⟩
    · intro r hr
      rcases List.mem_append.mp hr with h | h
      · exact hw1 r h
      · simp only [List.mem_singleton] at h
        subst h
        rfl
    · simp only [List.map_append, List.map_cons, List.map_nil]
      refine List.nodup_append.mpr ⟨hw2, List.nodup_singleton _, ?_⟩
      intro a ha hb
      simp only [List.mem_singleton] at hb
      subst hb
      exact hnotin ha
    · rw [map_fst_bucketSet _ (ensure_containsKey _ _)]
      exact ensure_map_fst_nodup hw3
    · intro p hp i hip
      rcases mem_bucketSet hp with hpv | hpold
      · subst hpv
        simp only at hip ⊢
        rcases List.mem_append.mp hip with hmem | hmem
        · have hcont : containsKey (AtomKey.from_str s) st.buckets = true := contains_of_mem_bucketGet hmem
          have hpair := bucketGet_mem hcont
          have hilen : i < List.length st.store := (hw4 _ hpair i hmem).1
          have hkey := (hw4 _ hpair i hmem).2
          constructor
          · simp only [List.length_append, List.length_cons, List.length_nil]
            omega
          · rw [recordAt_append_lt hilen]
            exact hkey
        · simp only [List.mem_singleton] at hmem
          subst hmem
          constructor
          · simp only [List.length_append, List.length_cons, List.length_nil]
            omega
          · rw [recordAt_append_self]
      · rcases ensure_mem hpold with h | h
        · have hilen := (hw4 _ h i hip).1
          have hkey := (hw4 _ h i hip).2
          constructor
          · simp only [List.length_append, List.length_cons, List.length_nil]
            omega
          · rw [recordAt_append_lt hilen]
            exact hkey
        · subst h
          simp at hip
    · intro i hi
      simp only [List.length_append, List.length_cons, List.length_nil] at hi
      by_cases hcase : i < List.length st.store
      · rw [recordAt_append_lt hcase]
        have hmem := hw5 i hcase
        by_cases hk : AtomKey.from_str (st.recordAt i).payload = AtomKey.from_str s
        · rw [hk, bucketGet_bucketSet_same]
          apply List.mem_append_left
          rw [hk] at hmem
          exact hmem
        · rw [bucketGet_bucketSet_ne _ _ hk, ensure_bucketGet]
          exact hmem
      · have hieq : i = List.length st.store := by omega
        subst hieq
        rw [recordAt_append_self]
        simp only
        rw [bucketGet_bucketSet_same]
        apply List.mem_append_right
        simp

theorem intern_store_extends {st : RegState} (s : Str) (hwf : wf st) :
    ∃ tl, (intern s st).2.store = st.store ++ tl := by
  by_cases hex : ∃ i, i < List.length st.store ∧ atomAsStr st i = s
  · obtain ⟨i, hi, hs⟩ := hex
    rw [intern_found hwf hi hs]
    exact ⟨[], by simp⟩
  · push_neg at hex
    rw [intern_miss hwf hex]
    exact ⟨_, rfl⟩

theorem intern_roundtrip {st : RegState} (s : Str) (hwf : wf st) :
    (intern s st).1 < List.length (intern s st).2.store
      ∧ atomAsStr (intern s st).2 (intern s st).1 = s := by
  by_cases hex : ∃ i, i < List.length st.store ∧ atomAsStr st i = s
  · obtain ⟨i, hi, hs⟩ := hex
    rw [intern_found hwf hi hs]
    exact ⟨hi, hs⟩
  · push_neg at hex
    rw [intern_miss hwf hex]
    refine ⟨by simp, ?_⟩
    simp only [atomAsStr]
    rw [recordAt_append_self]

theorem intern_of_mem {st : RegState} {s : Str} {i : Nat} (hwf : wf st)
    (hi : i < List.length st.store) (hs : atomAsStr st i = s) :
    (intern s st).1 = i := by
  rw [intern_found hwf hi hs]

theorem atomAsStr_stable {st : RegState} {s : Str} {i : Nat} (hwf : wf st)
    (hi : i < List.length st.store) :
    atomAsStr (intern s st).2 i = atomAsStr st i ∧ i < List.length (intern s st).2.store := by
  obtain ⟨tl, htl⟩ := intern_store_extends s hwf
  have hlen : i < List.length (intern s st).2.store := by
    rw [htl, List.length_append]
    omega
  constructor
  · show ((intern s st).2.recordAt i).payload = (st.recordAt i).payload
    have : (intern s st).2.recordAt i = st.recordAt i := by
      have hmk : (intern s st).2 = RegState.mk (st.store ++ tl) (intern s st).2.buckets := by
        cases hst2 : (intern s st).2 with
        | mk sstore sbuckets =>
            rw [hst2] at htl
            simp only at htl
            simp only [htl]
      rw [hmk]
      exact recordAt_append_lt hi
    rw [this]
  · exact hlen

/-- C1: for every pair of strings interned in sequence from a
well-formed registry, the returned Atoms are pointer-identical (same
record index) iff the strings are byte-for-byte equal — independently
of any Fingerprint Key collision, since the proof never relies on
distinct keys for distinct strings — and the resulting registry is
well-formed with pairwise-distinct record contents, so at most one
record exists per distinct string. -/
theorem claim_dedup_invariant (st : RegState) (s1 s2 : Str) (hwf : wf st) :
    (Atom.ptr_eq (intern s1 st).1 (intern s2 (intern s1 st).2).1 = true ↔ s1 = s2)
    ∧ wf (intern s2 (intern s1 st).2).2
    ∧ List.Nodup (List.map Record.payload (intern s2 (intern s1 st).2).2.store) := by
  have hwf1 : wf (intern s1 st).2 := intern_wf hwf
  have hrt1 := intern_roundtrip s1 hwf
  have hwf2 : wf (intern s2 (intern s1 st).2).2 := intern_wf hwf1
  have hrt2 := intern_roundtrip s2 hwf1
  have hstab := atomAsStr_stable (s := s2) hwf1 hrt1.1
  refine ⟨?_, hwf2, hwf2.2.1⟩
  rw [show (Atom.ptr_eq (intern s1 st).1 (intern s2 (intern s1 st).2).1 = true)
        ↔ ((intern s1 st).1 = (intern s2 (intern s1 st).2).1) from by
      simp [Atom.ptr_eq]]
  constructor
  · intro heq
    have h1 : atomAsStr (intern s2 (intern s1 st).2).2 (intern s1 st).1 = s1 := by
      rw [hstab.1, hrt1.2]
    rw [heq, hrt2.2] at h1
    exact h1.symm
  · intro heq
    have : (intern s2 (intern s1 st).2).1 = (intern s1 st).1 :=
      intern_of_mem hwf1 hrt1.1 (by rw [hrt1.2, heq])
    exact this.symm

theorem claim_dedup_invariant_witness :
    wf regEmpty
    ∧ ((Atom.ptr_eq (intern [97] regEmpty).1 (intern [98] (intern [97] regEmpty).2).1 = true
         ↔ ([97] : Str) = [98])
       ∧ wf (intern [98] (intern [97] regEmpty).2).2
       ∧ List.Nodup (List.map Record.payload (intern [98] (intern [97] regEmpty).2).2.store)) :=
  ⟨by decide, claim_dedup_invariant regEmpty [97] [98] (by decide)⟩

/-- C2: for every string `s`, `Atom::new(s).as_str()` returns exactly
`s` — for every well-formed registry state, so in particular for the
empty string, for strings shorter than the 64-byte hash window, and for
strings longer than it (the statement places no constraint on the
length of `s`). -/
theorem claim_content_roundtrip (st : RegState) (s : Str) (hwf : wf st) :
    atomAsStr (intern s st).2 (intern s st).1 = s :=
  (intern_roundtrip s hwf).2

theorem claim_content_roundtrip_witness :
    wf regEmpty
    ∧ atomAsStr (intern [104, 105] regEmpty).2 (intern [104, 105] regEmpty).1 = [104, 105] :=
  ⟨by decide, claim_content_roundtrip regEmpty [104, 105] (by decide)⟩

/-- C4: if the buffer length is at most `head_size + tail_size` the
windowed hash equals the whole-buffer hash; otherwise it equals
`hash_bytes` of the first `head_size` bytes concatenated with the last
`tail_size` bytes, so changing only interior bytes of a longer buffer
leaves the windowed hash unchanged.  (With `Nat` window sizes the sum
cannot overflow; the overflow behaviour is treated separately via
`hash_bytes_head_tail_checked`.) -/
theorem claim_windowed_hash (bytes bytes2 : Str) (h t : Nat) :
    (List.length bytes ≤ h + t → hash_bytes_head_tail bytes h t = hash_bytes bytes)
    ∧ (h + t < List.length bytes →
        hash_bytes_head_tail bytes h t
          = hash_bytes (List.take h bytes ++ List.drop (List.length bytes - t) bytes))
    ∧ (h + t < List.length bytes → List.length bytes2 = List.length bytes →
        List.take h bytes2 = List.take h bytes →
        List.drop (List.length bytes2 - t) bytes2 = List.drop (List.length bytes - t) bytes →
        hash_bytes_head_tail bytes2 h t = hash_bytes_head_tail bytes h t) := by
  have hlong : ∀ (b : Str), h + t < List.length b →
      hash_bytes_head_tail b h t
        = hash_bytes (List.take h b ++ List.drop (List.length b - t) b) := by
    intro b hb
    simp only [hash_bytes_head_tail, if_neg (not_le.mpr hb), XxHash64.finish, XxHash64.write,
      XxHash64.with_seed, hash_bytes, XxHash64.oneshot, List.nil_append]
  refine ⟨?_, hlong bytes, ?_⟩
  · intro hle
    simp only [hash_bytes_head_tail, if_pos hle]
  · intro hb hlen hhead htail
    rw [hlong bytes2 (by omega), hlong bytes hb, hhead, htail]

theorem claim_windowed_hash_witness :
    hash_bytes_head_tail [1, 9, 9, 9, 5] 1 1 = hash_bytes_head_tail [1, 2, 3, 4, 5] 1 1 :=
  (claim_windowed_hash [1, 2, 3, 4, 5] [1, 9, 9, 9, 5] 1 1).2.2
    (by decide) (by decide) (by decide) (by decide)

/-- C10: when `head_size + tail_size` does not overflow `usize`, the
head/tail hash performs only in-range slice indexing and returns a
digest (modelled: the bounds-checked variant returns `some` of the
mathematical result); the overflow case is unguarded — with
`head_size = usize::MAX` and `tail_size = 1` on the one-byte buffer the
wrapped window total is `0` and the head slice `bytes[0..usize::MAX]`
is out of range, so the call panics instead of returning a digest. -/
theorem claim_head_tail_bounds (bytes : Str) (h t : Nat) (hov : h + t < M64) :
    hash_bytes_head_tail_checked bytes h t = some (hash_bytes_head_tail bytes h t)
    ∧ hash_bytes_head_tail_checked [0] (M64 - 1) 1 = none := by
  constructor
  · simp only [hash_bytes_head_tail_checked, hash_bytes_head_tail, Nat.mod_eq_of_lt hov]
    by_cases hle : List.length bytes ≤ h + t
    · rw [if_pos hle, if_pos hle]
    · rw [if_neg hle, if_neg hle]
      have hlen : h + t < List.length bytes := not_le.mp hle
      rw [if_pos (by omega : t ≤ List.length bytes)]
      rw [show sliceRange bytes 0 h = some (List.take h bytes) from by
        simp only [sliceRange, if_pos (by omega : 0 ≤ h ∧ h ≤ List.length bytes)]
        rw [List.drop_zero]]
      rw [show sliceRange bytes (List.length bytes - t) (List.length bytes)
            = some (List.drop (List.length bytes - t) bytes) from by
        simp only [sliceRange,
          if_pos (by omega : List.length bytes - t ≤ List.length bytes ∧ List.length bytes ≤ List.length bytes)]
        rw [List.take_length]]
  · decide

theorem claim_head_tail_bounds_witness :
    hash_bytes_head_tail_checked [5, 6, 7] 1 1 = some (hash_bytes_head_tail [5, 6, 7] 1 1)
    ∧ hash_bytes_head_tail_checked [0] (M64 - 1) 1 = none :=
  claim_head_tail_bounds [5, 6, 7] 1 1 (by decide)

/-- C5: `AtomKey::from_str(s)` is the pure function returning the pair
of the head/tail windowed digest with the fixed 64-byte window
(`hash_str_ends s ENDS_SIZE`, `ENDS_SIZE = 64`) and the exact byte
length of `s`; equality of keys is structural in both fields, and the
derived total order compares the `hash` field first and then the `len`
field. -/
theorem claim_atomkey_from_str (s : Str) (k1 k2 : AtomKey) :
    AtomKey.from_str s = ⟨hash_str_ends s ENDS_SIZE, List.length s⟩
    ∧ ENDS_SIZE = 64
    ∧ (k1 = k2 ↔ k1.hash = k2.hash ∧ k1.len = k2.len)
    ∧ (AtomKey.cmp k1 k2 = Ordering.eq ↔ k1 = k2)
    ∧ (AtomKey.cmp k1 k2 = Ordering.lt
        ↔ (k1.hash < k2.hash ∨ (k1.hash = k2.hash ∧ k1.len < k2.len))) := by
  refine ⟨rfl, rfl, ?_, ?_, ?_⟩
  · cases k1
    cases k2
    simp [AtomKey.mk.injEq]
  · cases k1 with
    | mk h1 l1 =>
        cases k2 with
        | mk h2 l2 =>
            simp only [AtomKey.cmp, AtomKey.mk.injEq]
            cases hc : compare h1 h2 with
            | lt =>
                simp only [reduceCtorEq, false_iff, not_and]
                intro hh
                rw [Nat.compare_eq_lt] at hc
                omega
            | eq =>
                rw [Nat.compare_eq_eq] at hc
                simp [Nat.compare_eq_eq, hc]
            | gt =>
                simp only [reduceCtorEq, false_iff, not_and]
                intro hh
                rw [Nat.compare_eq_gt] at hc
                omega
  · cases k1 with
    | mk h1 l1 =>
        cases k2 with
        | mk h2 l2 =>
            simp only [AtomKey.cmp]
            cases hc : compare h1 h2 with
            | lt =>
                rw [Nat.compare_eq_lt] at hc
                simp only [true_iff]
                exact Or.inl hc
            | eq =>
                rw [Nat.compare_eq_eq] at hc
                simp [Nat.compare_eq_lt, hc]
            | gt =>
                rw [Nat.compare_eq_gt] at hc
                simp only [reduceCtorEq, false_iff]
                push_neg
                constructor
                · omega
                · intro hh
                  omega

/-- Rust `alloc::Layout`: a size and a power-of-two alignment. -/
structure Layout where
  size : Nat
  align : Nat
deriving DecidableEq

/-- Largest valid `isize` on a 64-bit target; `Layout` sizes must stay
at or below it. -/
def ISIZE_MAX : Nat := 2 ^ 63 - 1

/-- Round `n` up to the next multiple of `a` (for `a > 0`). -/
def roundUpTo (n a : Nat) : Nat := (n + a - 1) / a * a

/-- `Layout::new::<AtomInner<()>>()`: the header of a record.
`AtomInner<()>` is `repr(C)` with fields `key: AtomKey` (`u64` + `usize`:
16 bytes, align 8 on 64-bit targets) and `value: ()` (size 0, align 1),
so the header layout is size 16, align 8. -/
def atomInnerHeaderLayout : Layout := ⟨16, 8⟩

/-- `Layout::array::<u8>(len)`: `len` bytes at alignment 1; errors
(`unwrap` panic, modelled as `none`) when the size exceeds
`isize::MAX`. -/
def Layout.array_u8 (len : Nat) : Option Layout :=
  if len ≤ ISIZE_MAX then some ⟨len, 1⟩ else none

/-- `Layout::extend(self, next)`: place `next` after `self`, padding
`self`'s size up to `next`'s alignment; returns the combined layout and
the offset of `next`, or an error when the combined size (rounded up to
the combined alignment, per `Layout::from_size_align`) overflows
`isize::MAX`. -/
def Layout.extend_with (l next : Layout) : Option (Layout × Nat) :=
  let new_align := max l.align next.align
  let offset := roundUpTo l.size next.align
  let new_size := offset + next.size
  if roundUpTo new_size new_align ≤ ISIZE_MAX then some (⟨new_size, new_align⟩, offset) else none

/-- `Layout::pad_to_align`: round the size up to a multiple of the
alignment. -/
def Layout.pad_to_align (l : Layout) : Layout := ⟨roundUpTo l.size l.align, l.align⟩

/-- `AtomInner::layout(len)` (src/lib.rs lines 124-133):
`Layout::new::<AtomInner<()>>().extend(Layout::array::<u8>(len)).unwrap().0.pad_to_align()`,
with the two `unwrap`s modelled as `Option` binds. -/
def AtomInner.layout (len : Nat) : Option Layout :=
  (Layout.array_u8 len).bind fun arr =>
    (Layout.extend_with atomInnerHeaderLayout arr).map fun ext => ext.1.pad_to_align

/-- Payload offset produced by the same `extend` call (discarded by the
source via `.0`; exposed here to state where the payload is placed). -/
def AtomInner.payloadOffset (len : Nat) : Option Nat :=
  (Layout.array_u8 len).bind fun arr =>
    (Layout.extend_with atomInnerHeaderLayout arr).map fun ext => ext.2

/-- C8: for every payload length (within the allocatable range), the
combined record layout keeps the header's alignment (8), places the
payload immediately after the header (offset = header size = 16), and
has total size equal to header size plus payload length, rounded up to
the header's alignment. -/
theorem claim_record_layout (len : Nat) (hlen : len ≤ ISIZE_MAX - 23) :
    AtomInner.layout len = some ⟨roundUpTo (16 + len) 8, 8⟩
    ∧ AtomInner.payloadOffset len = some 16
    ∧ (AtomInner.layout len).map Layout.align = some atomInnerHeaderLayout.align
    ∧ (AtomInner.layout len).map Layout.size = some (roundUpTo (atomInnerHeaderLayout.size + len) 8) := by
  have harr : Layout.array_u8 len = some ⟨len, 1⟩ := by
    rw [Layout.array_u8, if_pos]
    unfold ISIZE_MAX at hlen ⊢
    omega
  have hoff : roundUpTo 16 1 = 16 := by decide
  have hext : Layout.extend_with atomInnerHeaderLayout ⟨len, 1⟩ = some (⟨16 + len, 8⟩, 16) := by
    rw [Layout.extend_with]
    simp only [atomInnerHeaderLayout, hoff]
    rw [if_pos]
    · simp
    · show roundUpTo (16 + len) (max 8 1) ≤ ISIZE_MAX
      have : roundUpTo (16 + len) (max 8 1) ≤ 16 + len + 7 := by
        simp only [show max 8 1 = 8 from rfl, roundUpTo]
        omega
      unfold ISIZE_MAX at hlen ⊢
      omega
  have h1 : AtomInner.layout len = some ⟨roundUpTo (16 + len) 8, 8⟩ := by
    simp [AtomInner.layout, harr, hext, Layout.pad_to_align]
  refine ⟨h1, ?_, ?_, ?_⟩
  · simp [AtomInner.payloadOffset, harr, hext]
  · rw [h1]
    rfl
  · rw [h1]
    rfl

theorem claim_record_layout_witness :
    AtomInner.layout 5 = some ⟨roundUpTo (16 + 5) 8, 8⟩
    ∧ AtomInner.payloadOffset 5 = some 16
    ∧ (AtomInner.layout 5).map Layout.align = some atomInnerHeaderLayout.align
    ∧ (AtomInner.layout 5).map Layout.size = some (roundUpTo (atomInnerHeaderLayout.size + 5) 8) :=
  claim_record_layout 5 (by decide)

/-- Rust `str::is_char_boundary(i)`: true at 0 and at the length, and
at any index whose byte is not a UTF-8 continuation byte
(`b < 0x80 || b >= 0xC0`); false past the end. -/
def isCharBoundary (s : Str) (i : Nat) : Bool :=
  if i = 0 then true
  else
    match List.get? s i with
    | none => i == List.length s
    | some b => b < 0x80 || 0xC0 ≤ b

/-- Rust `str` range indexing `s[a..b]` (`SliceIndex for Range<usize>`):
requires `a <= b` and both endpoints to be char boundaries (which
implies `b <= len`); otherwise the access panics (`none`), never
silently truncating. -/
def strSlice (s : Str) (a b : Nat) : Option Str :=
  if a ≤ b ∧ isCharBoundary s a ∧ isCharBoundary s b then
    some (List.drop a (List.take b s))
  else none

/-- The `Index<I>` impl for `Atom` (src/lib.rs lines 264-270) for range
indexes: `&self.as_str()[index]`, i.e. delegation to `str` slicing of
the atom's string view. -/
def atomIndexRange (st : RegState) (atom : Nat) (a b : Nat) : Option Str :=
  strSlice (atomAsStr st atom) a b

/-- C9: indexing an interned Atom with a byte range behaves exactly as
indexing the interned string itself: the same substring on in-range,
boundary-respecting offsets, and the same failure (panic, `none` — no
silent truncation) on out-of-range or non-boundary offsets. -/
theorem claim_atom_index (st : RegState) (s : Str) (a b : Nat) (hwf : wf st) :
    atomIndexRange (intern s st).2 (intern s st).1 a b = strSlice s a b := by
  unfold atomIndexRange
  rw [(intern_roundtrip s hwf).2]

theorem claim_atom_index_witness :
    wf regEmpty
    ∧ atomIndexRange (intern [48, 49, 50, 51, 52, 53, 54, 55, 56, 57] regEmpty).2
        (intern [48, 49, 50, 51, 52, 53, 54, 55, 56, 57] regEmpty).1 1 4
      = strSlice [48, 49, 50, 51, 52, 53, 54, 55, 56, 57] 1 4
    ∧ strSlice [48, 49, 50, 51, 52, 53, 54, 55, 56, 57] 1 4 = some [49, 50, 51]
    ∧ strSlice [48, 49, 50, 51, 52, 53, 54, 55, 56, 57] 4 11 = none :=
  ⟨by decide,
   claim_atom_index regEmpty [48, 49, 50, 51, 52, 53, 54, 55, 56, 57] 1 4 (by decide),
   by decide, by decide⟩

/-- Byte-lexicographic comparison of byte strings: Rust `str::cmp`
compares the UTF-8 byte sequences lexicographically. -/
def lexCompare : Str → Str → Ordering
  | [], [] => Ordering.eq
  | [], _ :: _ => Ordering.lt
  | _ :: _, [] => Ordering.gt
  | a :: xs, b :: ys =>
      match compare a b with
      | Ordering.eq => lexCompare xs ys
      | o => o

/-- `impl Ord for Atom` (src/lib.rs lines 308-312):
`self.as_str().cmp(other.as_str())`. -/
def Atom.cmp (st : RegState) (a b : Nat) : Ordering :=
  lexCompare (atomAsStr st a) (atomAsStr st b)

/-- `impl PartialOrd<Atom> for String`, method `partial_cmp`
(src/lib.rs lines 491-493): `self.as_str().partial_cmp(other.as_str())`
— byte-lexicographic content comparison (total on strings, so always
`some`; the `Ordering` is returned directly). -/
def string_cmp_atom (s : Str) (st : RegState) (a : Nat) : Ordering :=
  lexCompare s (atomAsStr st a)

/-- `impl PartialOrd<Atom> for String`, method `ge` (src/lib.rs lines
495-497): the source body is `self.as_str().eq(other.as_str())` — an
equality test where a greater-or-equal test belongs. -/
def string_ge_atom (s : Str) (st : RegState) (a : Nat) : Bool :=
  s == atomAsStr st a

/-- C3 (code bug): `String >= Atom` is implemented with `eq`, so for
`String::from("b") >= Atom::new("a")` the code returns `false`
(`"b" != "a"`) although the same impl block's `partial_cmp` — and the
byte-lexicographic order the claim requires — says `"b" > "a"`, i.e.
`>=` must be `true`.  All three facts are evaluated at that input. -/
theorem claim_string_ge_atom_bug :
    string_ge_atom [98] (intern [97] regEmpty).2 (intern [97] regEmpty).1 = false
    ∧ string_cmp_atom [98] (intern [97] regEmpty).2 (intern [97] regEmpty).1 = Ordering.gt
    ∧ lexCompare [98] (atomAsStr (intern [97] regEmpty).2 (intern [97] regEmpty).1) = Ordering.gt := by
  decide

/-- Data fed to the state hasher by `impl Hash for Atom` (src/lib.rs
lines 653-662): `self.inner.as_ref().key.hash(state)` resolves to
`Hash::hash` on `AtomKey`, whose derived implementation writes both
fields in declaration order — the `u64` digest and then the `usize`
length. -/
def atomHashFeed (st : RegState) (a : Nat) : List Nat :=
  [(st.recordAt a).key.hash, (st.recordAt a).key.len]

/-- Modelled from the spec: the hasher feed the spec describes — the
Fingerprint Key's u64 digest alone, and nothing else.  Stated in the
spec's words for comparison with `atomHashFeed`, the feed the code
produces. -/
def atomHashFeedDigestOnly (st : RegState) (a : Nat) : List Nat :=
  [(st.recordAt a).key.hash]

/-- C6 (counterexample): for the atom interned for "a", the data the
`Hash` impl feeds to the hasher is the digest *and* the length, not
the digest alone as the claim states. -/
theorem claim_atom_hash_counterexample :
    atomHashFeed (intern [97] regEmpty).2 (intern [97] regEmpty).1
      ≠ atomHashFeedDigestOnly (intern [97] regEmpty).2 (intern [97] regEmpty).1 := by
  decide

/-- C6 (amended): the `Hash` impl for `Atom` feeds the hasher exactly
the stored Fingerprint Key — its u64 digest followed by its usize
length — reading only the header, never scanning the string content;
consequently any two Atoms with byte-equal content feed identical data
to the hasher. -/
theorem claim_atom_hash_feed (st : RegState) (a b : Nat) (hwf : wf st)
    (ha : a < List.length st.store) (hb : b < List.length st.store)
    (hab : atomAsStr st a = atomAsStr st b) :
    atomHashFeed st a = [(st.recordAt a).key.hash, (st.recordAt a).key.len]
    ∧ atomHashFeed st a = atomHashFeed st b := by
  refine ⟨rfl, ?_⟩
  have hmema : st.recordAt a ∈ st.store := by
    simp only [RegState.recordAt, List.getD_eq_getElem _ _ ha]
    exact List.getElem_mem _
  have hmemb : st.recordAt b ∈ st.store := by
    simp only [RegState.recordAt, List.getD_eq_getElem _ _ hb]
    exact List.getElem_mem _
  have hka := hwf.1 _ hmema
  have hkb := hwf.1 _ hmemb
  have hkey : (st.recordAt a).key = (st.recordAt b).key := by
    rw [hka, hkb]
    exact congrArg AtomKey.from_str hab
  simp only [atomHashFeed, hkey]

theorem claim_atom_hash_feed_witness :
    (wf (intern [97] regEmpty).2
      ∧ 0 < List.length (intern [97] regEmpty).2.store
      ∧ atomAsStr (intern [97] regEmpty).2 0 = atomAsStr (intern [97] regEmpty).2 0)
    ∧ (atomHashFeed (intern [97] regEmpty).2 0
        = [((intern [97] regEmpty).2.recordAt 0).key.hash, ((intern [97] regEmpty).2.recordAt 0).key.len]
       ∧ atomHashFeed (intern [97] regEmpty).2 0 = atomHashFeed (intern [97] regEmpty).2 0) :=
  ⟨⟨by decide, by decide, rfl⟩,
   claim_atom_hash_feed (intern [97] regEmpty).2 0 0 (by decide) (by decide) (by decide) rfl⟩

/-- The lock-wrapped registry: a mutex either holds the map or is
poisoned (a panic occurred while the guard was held). -/
structure LockedReg where
  reg : RegState
  poisoned : Bool
deriving DecidableEq

/-- `Atom::new` with the allocation outcome made explicit (`canAlloc`
is whether the raw allocation in `AtomInner::alloc` returns a non-null
pointer).  `INTERN_SET.lock().unwrap()` panics on a poisoned mutex
(error, state unchanged).  Otherwise the critical section runs:
`entry(key).or_insert_with(Vec::new)` inserts an empty bucket when the
key is absent — a map mutation performed before any allocation — and on
a dedup miss with failing allocation, `new_internal`'s
`.expect("Out of memory or something.")` panics while the `MutexGuard`
is alive, which poisons the mutex; `Except.error` carries the registry
state and poison flag at the moment of the panic. -/
def internAlloc (canAlloc : Bool) (string : Str) (l : LockedReg) :
    Except LockedReg (Nat × LockedReg) :=
  if l.poisoned then Except.error l
  else
    let st := l.reg
    let key := AtomKey.from_str string
    let buckets1 := if containsKey key st.buckets then st.buckets else st.buckets ++ [(key, [])]
    let atoms := bucketGet key buckets1
    match List.find? (fun i => atomAsStr st i == string) atoms with
    | some i => Except.ok (i, ⟨{ st with buckets := buckets1 }, false⟩)
    | none =>
        if canAlloc then
          let i := List.length st.store
          Except.ok (i, ⟨⟨st.store ++ [⟨key, string⟩], bucketSet key (atoms ++ [i]) buckets1⟩, false⟩)
        else
          Except.error ⟨{ st with buckets := buckets1 }, true⟩

/-- State of the lock after an `internAlloc` call, whether it returned
or panicked. -/
def lockAfter (e : Except LockedReg (Nat × LockedReg)) : LockedReg :=
  match e with
  | Except.ok p => p.2
  | Except.error l => l

/-- Whether an `internAlloc` call returned normally. -/
def lockOk (e : Except LockedReg (Nat × LockedReg)) : Bool :=
  match e with
  | Except.ok _ => true
  | Except.error _ => false

/-- C7 (counterexample): interning a fresh string into the empty,
unpoisoned registry with failing allocation panics, and at that point
the registry map has already been mutated (an empty bucket for the new
key was inserted by the `entry` call before allocation was attempted)
and the mutex is left poisoned — refuting both halves of the claim at
a concrete input. -/
theorem claim_alloc_failure_counterexample :
    lockOk (internAlloc false [97] ⟨regEmpty, false⟩) = false
    ∧ (lockAfter (internAlloc false [97] ⟨regEmpty, false⟩)).poisoned = true
    ∧ (lockAfter (internAlloc false [97] ⟨regEmpty, false⟩)).reg.buckets ≠ regEmpty.buckets := by
  decide

/-- C7 (amended): if record allocation fails during an intern call on
an unpoisoned registry, no record and no handle has been added — the
store and the contents of every bucket are unchanged, the only mutation
being the possible creation of an empty bucket for the key, which needs
no rollback — but the panic happens while the lock is held, so the
Registry's lock IS left poisoned across the failed operation (a call
that instead finds an existing atom returns it without poisoning). -/
theorem claim_alloc_failure_behavior (s : Str) (st : RegState) :
    (match internAlloc false s ⟨st, false⟩ with
     | Except.ok p => p.2.poisoned = false ∧ p.2.reg.store = st.store
     | Except.error l =>
         l.poisoned = true ∧ l.reg.store = st.store
           ∧ ∀ k, bucketGet k l.reg.buckets = bucketGet k st.buckets) := by
  simp only [internAlloc, Bool.false_eq_true, if_false]
  cases hf : List.find? (fun i => atomAsStr st i == s)
      (bucketGet (AtomKey.from_str s)
        (if containsKey (AtomKey.from_str s) st.buckets then st.buckets
         else st.buckets ++ [(AtomKey.from_str s, [])])) with
  | some i => exact ⟨rfl, rfl⟩
  | none => exact ⟨rfl, rfl, fun k => ensure_bucketGet _ _ _⟩
